import Mathlib

/-!
Shallow embedding of `pool/workshop.go` (package `pool` of ttbug/goutil):
a capacity-bounded pool of reusable workers with least-loaded selection,
idle eviction, health-driven replacement and published stats snapshots.

Modelling conventions:
* Workers are identified by natural numbers; the environment (`Env`)
  supplies, per public operation, the wall clock (`now`), the result of
  each worker's `Health()` probe, the factory outcomes (indexed by the
  workshop's lifetime count of factory invocations) and the result of a
  `Callback` body.
* `workerInfo` objects are heap-allocated and mutated through pointers in
  Go (`mostFree` may alias a registry entry, or dangle at a removed one),
  so the model keeps an explicit heap `List (Nat × workerInfo)` mapping
  reference ids to records; `infos` maps worker ids to references and
  `mostFree` is an optional reference.
* `Close` sets `w.infos = nil`; a Go nil map reads as empty but panics on
  assignment, so `infos : Option _` with `none` for the nil map, and the
  (recovered) panic of `w.infos[worker] = info` inside `addFn` becomes the
  error string Go produces.
* `workerInfo.wg` is initialised with `wg: w.wg`, which copies the
  `sync.WaitGroup` by value; the model therefore gives each info its own
  counter copied from the workshop's counter, exactly as the source does.
  `WaitGroup.Add (-1)` below zero would panic in Go; the model keeps plain
  integer arithmetic (no claim depends on that panic).
* `uint64` counters are kept modulo 2^64 and `int32(...)` conversions are
  explicit; `int32` counters that Go merely increments/decrements are kept
  as `Int` (their wrap-around at ±2^31 is not exercised by any claim).
* Go map iteration order is unspecified; the model iterates association
  lists in insertion order (a legal determinization, with insertion
  replacing in place).
* `coarsetime.FloorTimeNow`/`CeilingTimeNow` differ by under the coarse
  tick; both are modelled by the single `Env.now`.
* The recursive `GET` loop of `hireLocked` is modelled with explicit fuel,
  one unit per arrival at `GET` (by `goto` or recursion); `none` means the
  loop is still running after that many iterations.
-/

namespace GoutilPool

/-- Association-list lookup (model of Go map read). -/
def alookup {α : Type} (l : List (Nat × α)) (k : Nat) : Option α :=
  match l with
  | [] => none
  | (k', v) :: t => if k' = k then some v else alookup t k

/-- Association-list insert/replace (model of Go map assignment). -/
def ainsert {α : Type} (l : List (Nat × α)) (k : Nat) (v : α) : List (Nat × α) :=
  match l with
  | [] => [(k, v)]
  | (k', v') :: t => if k' = k then (k, v) :: t else (k', v') :: ainsert t k v

/-- Association-list delete (model of Go `delete`; no-op when absent). -/
def aerase {α : Type} (l : List (Nat × α)) (k : Nat) : List (Nat × α) :=
  match l with
  | [] => []
  | (k', v') :: t => if k' = k then t else (k', v') :: aerase t k

/-- Update the value at a key in place (model of mutation through a pointer). -/
def aupdate {α : Type} (l : List (Nat × α)) (k : Nat) (f : α → α) : List (Nat × α) :=
  match l with
  | [] => []
  | (k', v') :: t => if k' = k then (k', f v') :: t else (k', v') :: aupdate t k f

/-- 2^64, the modulus of Go `uint64` counters. -/
def u64Mod : Nat := 18446744073709551616

/-- `math.MaxInt32`. -/
def maxInt32 : Int := 2147483647

/-- Go's `int32(u)` for a `uint64` value `u` (truncate to 32 bits, signed). -/
def toInt32 (n : Int) : Int :=
  let m := n.emod 4294967296
  if m < 2147483648 then m else m - 4294967296

/-- `int32(hire - fire)` where `hire`, `fire` are `uint64`. -/
def doingOf (hire fire : Nat) : Int :=
  toInt32 (((hire : Int) - (fire : Int)).emod (u64Mod : Int))

/-- `workerInfo`: per-worker bookkeeping. `wg` is this info's by-value copy
of the workshop's `sync.WaitGroup` counter (the source writes `wg: w.wg`,
copying the struct). -/
structure workerInfo where
  worker : Nat
  jobNum : Int
  idleExpire : Nat
  wg : Int
  deriving Repr, DecidableEq

/-- `WorkshopStats`. `worker`, `idle`, `doing`, `mostUsed`, `leastUsed` are
Go `int32`; `created`, `hire`, `fire` are Go `uint64` kept modulo 2^64. -/
structure WorkshopStats where
  worker : Int := 0
  idle : Int := 0
  created : Nat := 0
  hire : Nat := 0
  fire : Nat := 0
  doing : Int := 0
  mostUsed : Int := 0
  leastUsed : Int := 0
  deriving Repr, DecidableEq

/-- The `Workshop` state. `heap` stores every `workerInfo` ever allocated,
keyed by reference id (`nextRef` is the allocator); `infos` maps worker ids
to references (`none` models Go's nil map after `Close`); `mostFree` is a
reference (may dangle, as the Go pointer may). `published` is the snapshot
held in `statsReader`; `wg` is the workshop's own WaitGroup counter;
`closedTrace` records every `Worker.Close()` call in order; `facCalls`
counts factory invocations (ghost, used to index `Env.factory`). -/
structure Workshop where
  maxQuota : Nat
  maxIdleDuration : Nat
  nextRef : Nat := 0
  heap : List (Nat × workerInfo) := []
  infos : Option (List (Nat × Nat)) := some []
  mostFree : Option Nat := none
  stats : WorkshopStats := {}
  published : WorkshopStats := {}
  wg : Int := 0
  closed : Bool := false
  closedTrace : List Nat := []
  facCalls : Nat := 0
  deriving Repr, DecidableEq

/-- Outcome of one factory (`newWorkerFunc`) invocation: a worker, an error,
or an abnormal termination (Go panic) with the formatted panic value. -/
inductive FacOutcome where
  | ok (w : Nat)
  | fail (msg : String)
  | panicked (msg : String)
  deriving Repr, DecidableEq

/-- Per-operation environment: wall clock, health-probe oracle, factory
outcome stream (indexed by the workshop's lifetime factory-call count) and
the result of a `Callback` body per worker. -/
structure Env where
  now : Nat
  health : Nat → Bool
  factory : Nat → FacOutcome
  fnErr : Nat → Option String

/-- The `ErrWorkshopClosed` message. -/
def errWorkshopClosed : String := "workshop is closed"

/-- The message of the recovered Go panic raised by assigning to a nil map
(`w.infos[worker] = info` after `Close` set `w.infos = nil`). -/
def nilMapAssign : String := "assignment to entry in nil map"

/-- Length of a possibly-nil Go map. -/
def sizeInfosL (inf : Option (List (Nat × Nat))) : Nat :=
  match inf with
  | none => 0
  | some l => l.length

/-- Lookup in a possibly-nil Go map. -/
def alookupO (inf : Option (List (Nat × Nat))) (id : Nat) : Option Nat :=
  match inf with
  | none => none
  | some l => alookup l id

/-- `len(w.infos)`: a nil map has length 0. -/
def sizeInfos (s : Workshop) : Nat :=
  sizeInfosL s.infos

/-- Read a heap record (references are only ever allocated, never freed, so
present references always resolve; the default is never reached from
allocated references). -/
def hget (s : Workshop) (r : Nat) : workerInfo :=
  (alookup s.heap r).getD ⟨0, 0, 0, 0⟩

/-- Mutate a heap record through its reference. -/
def hset (s : Workshop) (r : Nat) (f : workerInfo → workerInfo) : Workshop :=
  { s with heap := aupdate s.heap r f }

/-- `writeStats`: publish the current stats snapshot. -/
def writeStats (s : Workshop) : Workshop :=
  { s with published := s.stats }

/-- `WorkshopStats.hireOne`. -/
def hireOne (st : WorkshopStats) : WorkshopStats :=
  let hire := (st.hire + 1) % u64Mod
  { st with hire := hire, doing := doingOf hire st.fire }

/-- `WorkshopStats.fireOne`. -/
def fireOne (st : WorkshopStats) : WorkshopStats :=
  let fire := (st.fire + 1) % u64Mod
  { st with fire := fire, doing := doingOf st.hire fire }

/-- `workerInfo.use`: increment `jobNum` and this info's WaitGroup copy. -/
def use (s : Workshop) (r : Nat) : Workshop :=
  hset s r (fun i => { i with jobNum := i.jobNum + 1, wg := i.wg + 1 })

/-- `workerInfo.free`: decrement `jobNum` and this info's WaitGroup copy. -/
def free (s : Workshop) (r : Nat) : Workshop :=
  hset s r (fun i => { i with jobNum := i.jobNum - 1, wg := i.wg - 1 })

/-- `NewWorkshop` (state part; the `gc` goroutine appears as `reap` steps in
operation sequences). Non-positive parameters fall back to the defaults. -/
def newWorkshop (maxQuota : Int) (maxIdleDuration : Int) : Workshop :=
  { maxQuota := (if maxQuota ≤ 0 then 64 else maxQuota).toNat
    maxIdleDuration := (if maxIdleDuration ≤ 0 then 180000000000 else maxIdleDuration).toNat }

/-- `w.addFn`: invoke the factory, converting a panic (including the nil-map
assignment panic after `Close`) into an error via the deferred `recover`;
on success allocate the info (with the by-value WaitGroup copy), register
it and bump `Created`/`Worker`. Returns the new reference or the error. -/
def addFn (env : Env) (s : Workshop) : Except String Nat × Workshop :=
  let s := { s with facCalls := s.facCalls + 1 }
  match env.factory (s.facCalls - 1) with
  | .fail msg => (.error msg, s)
  | .panicked msg => (.error msg, s)
  | .ok w =>
    match s.infos with
    | none => (.error nilMapAssign, s)
    | some l =>
      let r := s.nextRef
      let info : workerInfo := { worker := w, jobNum := 0, idleExpire := 0, wg := s.wg }
      let st := s.stats
      (.ok r,
        { s with
          nextRef := r + 1
          heap := ainsert s.heap r info
          infos := some (ainsert l w r)
          stats := { st with created := (st.created + 1) % u64Mod, worker := st.worker + 1 } })

/-- One step of `updateFreeLocked`'s scan: keep the current best unless the
next entry is strictly less loaded (first-encountered minimum). -/
def bestStep (s : Workshop) (acc : Option Nat) (e : Nat × Nat) : Option Nat :=
  match acc with
  | none => some e.2
  | some b => if (hget s e.2).jobNum ≥ (hget s b).jobNum then some b else some e.2

/-- `updateFreeLocked`: recompute `mostFree` as the first-encountered
minimum-`jobNum` entry, or `none` when the registry is empty. -/
def updateFreeLocked (s : Workshop) : Workshop :=
  match s.infos with
  | none => { s with mostFree := none }
  | some l =>
    if l.length = 0 then { s with mostFree := none }
    else { s with mostFree := l.foldl (bestStep s) none }

/-- The unhealthy-worker removal inside `fireLocked` (lines 190–194):
delete the binding (no `Close()`, no `free()`), decrement `Worker`. -/
def unhealthyRemove (s : Workshop) (w : Nat) : Workshop :=
  { s with
    infos := s.infos.map (fun l => aerase l w)
    stats := { s.stats with worker := s.stats.worker - 1 } }

/-- Lines 197–200 of `fireLocked`: when the freed worker's `jobNum` reached
0, stamp its idle expiry and increment `Idle`. -/
def fireIdle (env : Env) (s : Workshop) (r : Nat) : Workshop :=
  if (hget s r).jobNum = 0 then
    { hset s r (fun i => { i with idleExpire := env.now + s.maxIdleDuration }) with
      stats := { s.stats with idle := s.stats.idle + 1 } }
  else s

/-- Lines 201–204 of `fireLocked`: make the freed worker the hint when it
is now strictly less loaded than the current hint. Reading
`w.mostFree.jobNum` with a nil `mostFree` would be a Go nil dereference;
that state is unreachable with a non-empty registry, and the model then
takes the assignment branch. -/
def fireHint (s : Workshop) (r : Nat) (jobNum : Int) : Workshop :=
  match s.mostFree with
  | some m => if jobNum ≥ (hget s m).jobNum then s else { s with mostFree := some r }
  | none => { s with mostFree := some r }

/-- The healthy path of `fireLocked` (lines 195–204): `free` the worker
(reading its decremented `jobNum` as the source does), then the idle
stamping and the hint update. -/
def fireFree (env : Env) (s : Workshop) (r : Nat) : Workshop :=
  fireHint (fireIdle env (free s r) r) r ((hget (free s r) r).jobNum)

/-- `fireLocked` (lines 188–205): bump `Fire`; an unhealthy worker is
deleted from the registry (without `Close()` and without `free()`); a
healthy one goes through `fireFree`. -/
def fireLocked (env : Env) (s : Workshop) (r : Nat) : Workshop :=
  if ¬ env.health ((hget s r).worker) then
    unhealthyRemove { s with stats := fireOne s.stats } ((hget s r).worker)
  else
    fireFree env { s with stats := fireOne s.stats } r

/-- The removal of an unhealthy selected candidate inside `hireLocked`
(lines 234–238): delete its binding (no `Close()`, no hint refresh),
decrement `Worker`, and also `Idle` when the candidate was idle. -/
def evictCandidate (s : Workshop) (r : Nat) : Workshop :=
  let info := hget s r
  let s1 :=
    { s with
      infos := s.infos.map (fun l => aerase l info.worker)
      stats := { s.stats with worker := s.stats.worker - 1 } }
  if info.jobNum = 0 then
    { s1 with stats := { s1.stats with idle := s1.stats.idle - 1 } }
  else s1

/-- The tail of a `GET` iteration after candidate selection (lines 233–244):
the health probe on the candidate `r`; an unhealthy candidate is removed by
`evictCandidate` and the loop retries (`.inr` = retry with this state); a
healthy one is `use`d and returned (`.inl`). -/
def hireTail (env : Env) (s : Workshop) (r : Nat) :
    (Except String Nat × Workshop) ⊕ Workshop :=
  if env.health ((hget s r).worker) then
    .inl (.ok r, { use s r with stats := hireOne s.stats })
  else
    .inr (evictCandidate s r)

/-- `w.stats.Idle--`, performed as soon as an idle hint is selected. -/
def idleDec (s : Workshop) : Workshop :=
  { s with stats := { s.stats with idle := s.stats.idle - 1 } }

/-- The idle-expiry eviction inside `hireLocked` (lines 214–218): delete
the binding, `Close()` the worker, decrement `Worker`. -/
def expireEvict (s : Workshop) (w : Nat) : Workshop :=
  { s with
    infos := s.infos.map (fun l => aerase l w)
    closedTrace := s.closedTrace ++ [w]
    stats := { s.stats with worker := s.stats.worker - 1 } }

/-- `hireLocked`, fuelled: one fuel unit per arrival at `GET` (the `goto`
and the self-recursion both re-enter `GET`); `(none, s)` means the loop is
still running after `fuel` iterations, with `s` the state reached. The
candidate `info` is read from the heap before any mutation of this
iteration, as the source reads it once into a local. With `mostFree` nil
while `len(infos) ≥ maxQuota` the source would dereference a nil pointer
(`info.jobNum`); that requires an empty registry at positive quota, hence
is unreachable, and the model returns a marker error. -/
def hireLockedF (env : Env) : Nat → Workshop → Option (Except String Nat) × Workshop
  | 0, s => (none, s)
  | fuel + 1, s =>
    match s.mostFree with
    | some r =>
      if sizeInfos s ≥ s.maxQuota ∨ (hget s r).jobNum = 0 then
        if (hget s r).jobNum = 0 then
          if env.now > (hget s r).idleExpire then
            hireLockedF env fuel
              (updateFreeLocked (expireEvict (idleDec s) ((hget s r).worker)))
          else
            match hireTail env (updateFreeLocked (idleDec s)) r with
            | .inl (res, s) => (some res, s)
            | .inr s => hireLockedF env fuel s
        else
          match hireTail env (updateFreeLocked s) r with
          | .inl (res, s) => (some res, s)
          | .inr s => hireLockedF env fuel s
      else
        match addFn env s with
        | (.error e, s) => (some (.error e), s)
        | (.ok r, s) =>
          match hireTail env { s with mostFree := some r } r with
          | .inl (res, s) => (some res, s)
          | .inr s => hireLockedF env fuel s
    | none =>
      if sizeInfos s ≥ s.maxQuota then
        (some (.error "nil dereference"), s)  -- Go panics here; unreachable
      else
        match addFn env s with
        | (.error e, s) => (some (.error e), s)
        | (.ok r, s) =>
          match hireTail env { s with mostFree := some r } r with
          | .inl (res, s) => (some res, s)
          | .inr s => hireLockedF env fuel s

/-- `Hire` (lines 171–181): `hireLocked` then `writeStats` under the lock,
returning the worker or the error. Note the source has no `closeCh` check
here. `none` = the `GET` loop has not finished within `fuel` iterations. -/
def hire (env : Env) (fuel : Nat) (s : Workshop) :
    Option (Except String Nat) × Workshop :=
  let (res, s) := hireLockedF env fuel s
  let s := writeStats s
  match res with
  | none => (none, s)
  | some (.error e) => (some (.error e), s)
  | some (.ok r) => (some (.ok (hget s r).worker), s)

/-- `w.infos[worker]`: registry lookup (a nil map reads as empty). -/
def lookupWorker (s : Workshop) (id : Nat) : Option Nat :=
  alookupO s.infos id

/-- `Fire` (lines 154–168): a worker not in the registry is best-effort
closed (if non-nil) and nothing else happens (no `writeStats`); a
registered one goes through `fireLocked` + `writeStats`. `w = none` models
`Fire(nil)`. -/
def fire (env : Env) (w : Option Nat) (s : Workshop) : Workshop :=
  let found :=
    match w with
    | none => none
    | some id => lookupWorker s id
  match found with
  | none =>
    match w with
    | none => s
    | some id => { s with closedTrace := s.closedTrace ++ [id] }
  | some r => writeStats (fireLocked env s r)

/-- One entry of `refreshLocked`'s sweep (lines 282–299): an idle worker
that is unhealthy or expired is evicted (with `Close()`), decrementing
live/idle counts and flagging the hint for recomputation; a survivor
contributes its `jobNum` to the running max/min. -/
def refreshStep (env : Env) (acc : Workshop × Int × Int × Bool) (e : Nat × Nat) :
    Workshop × Int × Int × Bool :=
  let (s, max, min, shouldUpdate) := acc
  let info := hget s e.2
  if info.jobNum = 0 ∧ (¬ env.health info.worker ∨ env.now > info.idleExpire) then
    ({ s with
        infos := s.infos.map (fun l => aerase l info.worker)
        closedTrace := s.closedTrace ++ [info.worker]
        stats := { s.stats with worker := s.stats.worker - 1
                                idle := s.stats.idle - 1 } },
      max, min, true)
  else
    (s, (if info.jobNum > max then info.jobNum else max),
      (if info.jobNum < min then info.jobNum else min), shouldUpdate)

/-- The end of `refreshLocked` (lines 300–308): refresh the hint if any
eviction happened, resolve `min` (`MaxInt32` means "no survivors" and
becomes 0), store `LeastUsed`/`MostUsed`, publish. The accumulator is
`(state, max, min, shouldUpdate)`. -/
def refreshFinish (acc : Workshop × Int × Int × Bool) : Workshop :=
  writeStats
    { (if acc.2.2.2 then updateFreeLocked acc.1 else acc.1) with
      stats := { (if acc.2.2.2 then updateFreeLocked acc.1 else acc.1).stats with
                 leastUsed := (if acc.2.2.1 = maxInt32 then 0 else acc.2.2.1)
                 mostUsed := acc.2.1 } }

/-- `refreshLocked` (lines 277–309): sweep the registry (in iteration
order), evicting idle workers that are unhealthy or expired (with
`Close()`), recomputing `MostUsed`/`LeastUsed` over the survivors,
refreshing the hint if anything was evicted, and publishing stats. -/
def refreshLocked (env : Env) (s : Workshop) : Workshop :=
  refreshFinish ((s.infos.getD []).foldl (refreshStep env) (s, 0, maxInt32, false))

/-- The relation `Doing = int32(Hire - Fire)` that `hireOne`/`fireOne`
re-establish after every counter bump. -/
def statsDoingOk (st : WorkshopStats) : Prop :=
  st.doing = doingOf st.hire st.fire

/-- Bookkeeping facts preserved by every internal (under-lock, pre-publish)
transition: the quota is constant, the registry stays within the quota, the
`Doing` relation is preserved, and the published snapshot is untouched. -/
def PoolPres (s s' : Workshop) : Prop :=
  s'.maxQuota = s.maxQuota ∧
    (sizeInfos s ≤ s.maxQuota → sizeInfos s' ≤ s.maxQuota) ∧
    (statsDoingOk s.stats → statsDoingOk s'.stats) ∧
    s'.published = s.published

/-- One cycle of the `gc` goroutine (lines 262–274): nothing once
`closeCh` is closed, otherwise `refreshLocked` under the lock. -/
def reap (env : Env) (s : Workshop) : Workshop :=
  if s.closed then s else refreshLocked env s

/-- `Close` (lines 133–150): idempotent; closes `closeCh`, waits on the
workshop's own WaitGroup (whose counter is never touched, because
`workerInfo.wg` is a by-value copy, so the wait returns at once), closes
every registered worker, sets the registry to the nil map, zeroes
`Idle`/`Worker` and runs `refreshLocked`. `mostFree` is left as is. -/
def closeWorkshop (env : Env) (s : Workshop) : Workshop :=
  if s.closed then s
  else
    refreshLocked env
      { s with
        closed := true
        closedTrace := s.closedTrace ++
          (s.infos.getD []).map (fun (e : Nat × Nat) => (hget s e.2).worker)
        infos := none
        stats := { s.stats with idle := 0, worker := 0 } }

/-- `Callback` (lines 104–130): rejected with `ErrWorkshopClosed` when
`closeCh` is closed (before touching anything); otherwise hire (publishing
stats), run `fn` on the worker, and in the deferred block fire the saved
info (or close the worker, had it been removed — impossible in this
sequential model, but the lookup is performed as the source does).
Returns `none` while the hire loop is still running; otherwise
`some (err?, fnWasCalled)`. -/
def callback (env : Env) (fuel : Nat) (s : Workshop) :
    Option (Option String × Bool) × Workshop :=
  if s.closed then (some (some errWorkshopClosed, false), s)
  else
    let (res, s) := hireLockedF env fuel s
    let s := writeStats s
    match res with
    | none => (none, s)
    | some (.error e) => (some (some e, false), s)
    | some (.ok r) =>
      let worker := (hget s r).worker
      let fnRes := env.fnErr worker
      if (lookupWorker s worker).isSome then
        (some (fnRes, true), writeStats (fireLocked env s r))
      else
        (some (fnRes, true), { s with closedTrace := s.closedTrace ++ [worker] })

/-- A public pool operation together with its environment, as observed at
the workshop's API boundary. -/
inductive Op where
  | opHire (env : Env) (fuel : Nat)
  | opFire (env : Env) (w : Option Nat)
  | opCallback (env : Env) (fuel : Nat)
  | opClose (env : Env)
  | opReap (env : Env)

/-- The state transition of one operation (results discarded). -/
def step (o : Op) (s : Workshop) : Workshop :=
  match o with
  | .opHire env fuel => (hire env fuel s).2
  | .opFire env w => fire env w s
  | .opCallback env fuel => (callback env fuel s).2
  | .opClose env => closeWorkshop env s
  | .opReap env => reap env s

/-- Run a sequence of operations from a state. -/
def run (ops : List Op) (s : Workshop) : Workshop :=
  ops.foldl (fun s o => step o s) s

/-! Concrete environments and reachable states used to evaluate the model. -/

/-- Everything healthy; the factory always yields worker 5. -/
def envGood : Env :=
  { now := 0, health := fun _ => true, factory := fun _ => .ok 5, fnErr := fun _ => none }

/-- Every health probe fails; the factory always yields worker 5. -/
def envSick : Env :=
  { now := 0, health := fun _ => false, factory := fun _ => .ok 5, fnErr := fun _ => none }

/-- The factory yields worker 1 then worker 2; only worker 2 is healthy. -/
def envRetry : Env :=
  { now := 5, health := fun w => w == 2, factory := fun n => .ok (n + 1), fnErr := fun _ => none }

/-- The factory always fails with "boom"; probes healthy; the clock is past
the idle expiry of `wsIdle`'s worker. -/
def envBoomLate : Env :=
  { now := 11, health := fun _ => true, factory := fun _ => .fail "boom", fnErr := fun _ => none }

/-- A fresh workshop (quota 2) after one successful `Hire` of worker 5. -/
def wsA : Workshop := run [Op.opHire envGood 3] (newWorkshop 2 10)

/-- `wsA` after firing worker 5 while healthy: worker 5 idle until time 10. -/
def wsIdle : Workshop :=
  run [Op.opHire envGood 3, Op.opFire envGood (some 5)] (newWorkshop 2 10)

/-- `wsA` after firing worker 5 while unhealthy: the registry is emptied but
`mostFree` still points at the removed handle. -/
def wsDangling : Workshop :=
  run [Op.opHire envGood 3, Op.opFire envSick (some 5)] (newWorkshop 2 10)

/-- A freshly constructed then closed workshop. -/
def wsClosed : Workshop := closeWorkshop envGood (newWorkshop 1 5)

/-- Boolean form of the Selector-hint invariant: when `mostFree` is
present, it refers to a handle currently in the registry. -/
def hintOkB (s : Workshop) : Bool :=
  match s.mostFree with
  | none => true
  | some r =>
    match s.infos with
    | none => false
    | some l => decide (r ∈ l.map Prod.snd)

/-! Association-list lemmas. -/

theorem alookup_aerase_self {α : Type} {l : List (Nat × α)} {k : Nat}
    (hnd : (l.map Prod.fst).Nodup) : alookup (aerase l k) k = none := by
  induction l with
  | nil => rfl
  | cons e t ih =>
    obtain ⟨k₀, v₀⟩ := e
    simp only [List.map_cons, List.nodup_cons] at hnd
    by_cases hk : k₀ = k
    · subst hk
      simp only [aerase, if_pos rfl]
      -- k₀ occurs in no binding of t, so the lookup misses
      clear ih
      induction t with
      | nil => rfl
      | cons e' t' ih' =>
        obtain ⟨k₁, v₁⟩ := e'
        simp only [List.map_cons, List.mem_cons, List.nodup_cons] at hnd
        have hne : k₁ ≠ k₀ := fun h => hnd.1 (Or.inl h.symm)
        simp only [alookup, if_neg hne]
        exact ih' ⟨fun h => hnd.1 (Or.inr h), hnd.2.2⟩
    · simp only [aerase, if_neg hk, alookup, if_neg hk]
      exact ih hnd.2

theorem aerase_length_le {α : Type} (l : List (Nat × α)) (k : Nat) :
    (aerase l k).length ≤ l.length := by
  induction l with
  | nil => simp [aerase]
  | cons e t ih =>
    obtain ⟨k', v'⟩ := e
    by_cases h : k' = k <;> simp [aerase, h] <;> omega

theorem ainsert_length_le {α : Type} (l : List (Nat × α)) (k : Nat) (v : α) :
    (ainsert l k v).length ≤ l.length + 1 := by
  induction l with
  | nil => simp [ainsert]
  | cons e t ih =>
    obtain ⟨k', v'⟩ := e
    by_cases h : k' = k <;> simp [ainsert, h] <;> omega

theorem alookup_mem_snd {α : Type} {l : List (Nat × α)} {k : Nat} {v : α}
    (h : alookup l k = some v) : v ∈ l.map Prod.snd := by
  induction l with
  | nil => simp [alookup] at h
  | cons e t ih =>
    obtain ⟨k', v'⟩ := e
    simp only [List.map_cons, List.mem_cons]
    by_cases hk : k' = k
    · simp [alookup, hk] at h
      exact Or.inl h.symm
    · simp [alookup, hk] at h
      exact Or.inr (ih h)

theorem alookup_aerase_isSome {α : Type} {l : List (Nat × α)} {k k' : Nat}
    (h : (alookup (aerase l k) k').isSome) : (alookup l k').isSome := by
  induction l with
  | nil => simpa [aerase] using h
  | cons e t ih =>
    obtain ⟨k₀, v₀⟩ := e
    by_cases hk : k₀ = k
    · by_cases hk' : k₀ = k'
      · simp [alookup, hk']
      · simp only [aerase, if_pos hk] at h
        simpa [alookup, hk'] using h
    · by_cases hk' : k₀ = k'
      · simp [alookup, hk']
      · simp only [aerase, if_neg hk] at h
        simp only [alookup, if_neg hk'] at h ⊢
        exact ih h

theorem mem_snd_aerase {α : Type} {l : List (Nat × α)} {k : Nat} {r m : α}
    (hl : alookup l k = some r) (hmr : m ≠ r) (hm : m ∈ l.map Prod.snd) :
    m ∈ (aerase l k).map Prod.snd := by
  induction l with
  | nil => simp at hm
  | cons e t ih =>
    obtain ⟨k₀, v₀⟩ := e
    by_cases hk : k₀ = k
    · simp [alookup, hk] at hl
      simp only [aerase, if_pos hk]
      simp only [List.map_cons, List.mem_cons] at hm
      rcases hm with hm | hm
      · exact absurd (hm.trans hl) hmr
      · exact hm
    · simp [alookup, hk] at hl
      simp only [aerase, if_neg hk, List.map_cons, List.mem_cons] at hm ⊢
      rcases hm with hm | hm
      · exact Or.inl hm
      · exact Or.inr (ih hl hm)

theorem mem_snd_ainsert_self {α : Type} (l : List (Nat × α)) (k : Nat) (v : α) :
    v ∈ (ainsert l k v).map Prod.snd := by
  induction l with
  | nil => simp [ainsert]
  | cons e t ih =>
    obtain ⟨k', v'⟩ := e
    by_cases h : k' = k
    · simp [ainsert, h]
    · simp only [ainsert, if_neg h, List.map_cons, List.mem_cons]
      exact Or.inr ih

theorem sizeInfosL_map_aerase (inf : Option (List (Nat × Nat))) (w : Nat) :
    sizeInfosL (inf.map (fun l => aerase l w)) ≤ sizeInfosL inf := by
  cases inf with
  | none => simp [sizeInfosL]
  | some l => simpa [sizeInfosL] using aerase_length_le l w

theorem alookupO_map_aerase_isSome {inf : Option (List (Nat × Nat))} {w id : Nat}
    (h : (alookupO (inf.map (fun l => aerase l w)) id).isSome) :
    (alookupO inf id).isSome := by
  cases inf with
  | none => simpa [alookupO] using h
  | some l => exact alookup_aerase_isSome (by simpa [alookupO] using h)

theorem foldl_bestStep_spec (s : Workshop) (l : List (Nat × Nat)) :
    ∀ acc : Option Nat,
      l.foldl (bestStep s) acc = acc ∨
        ∃ b, l.foldl (bestStep s) acc = some b ∧ b ∈ l.map Prod.snd := by
  induction l with
  | nil => intro acc; exact Or.inl rfl
  | cons e t ih =>
    intro acc
    have hstep : bestStep s acc e = acc ∨ bestStep s acc e = some e.2 := by
      cases acc with
      | none => exact Or.inr rfl
      | some b =>
        by_cases h : (hget s e.2).jobNum ≥ (hget s b).jobNum
        · exact Or.inl (by simp [bestStep, h])
        · exact Or.inr (by simp [bestStep, h])
    rw [List.foldl_cons]
    rcases ih (bestStep s acc e) with h | ⟨b, hb, hmem⟩
    · rw [h]
      rcases hstep with h' | h'
      · exact Or.inl h'
      · exact Or.inr ⟨e.2, h', by simp⟩
    · exact Or.inr ⟨b, hb, by simp [hmem]⟩

theorem hintOkB_updateFree (s : Workshop) : hintOkB (updateFreeLocked s) = true := by
  unfold updateFreeLocked
  cases hinf : s.infos with
  | none => rfl
  | some l =>
    by_cases hlen : l.length = 0
    · simp [hlen, hintOkB]
    · simp only [if_neg hlen]
      rcases foldl_bestStep_spec s l none with h | ⟨b, hb, hmem⟩
      · simp [hintOkB, h]
      · simp [hintOkB, hb, hinf, hmem]

/-- Characterization of `hireTail`: a `.inl` exit is the successful hire of
the candidate (only heap and stats change); a `.inr` exit removed the
unhealthy candidate's binding (registry shrinks, hire/fire/doing counters
and everything but `infos`/`stats` untouched). -/
theorem evictCandidate_spec (s : Workshop) (r : Nat) :
    (evictCandidate s r).mostFree = s.mostFree ∧
      (evictCandidate s r).maxQuota = s.maxQuota ∧
      (evictCandidate s r).facCalls = s.facCalls ∧
      (evictCandidate s r).published = s.published ∧
      (evictCandidate s r).heap = s.heap ∧
      (evictCandidate s r).closedTrace = s.closedTrace ∧
      sizeInfos (evictCandidate s r) ≤ sizeInfos s ∧
      (evictCandidate s r).stats.hire = s.stats.hire ∧
      (evictCandidate s r).stats.fire = s.stats.fire ∧
      (evictCandidate s r).stats.doing = s.stats.doing ∧
      (∀ id, (lookupWorker (evictCandidate s r) id).isSome →
        (lookupWorker s id).isSome) := by
  unfold evictCandidate
  simp only []
  by_cases hj : (hget s r).jobNum = 0
  · rw [if_pos hj]
    refine ⟨rfl, rfl, rfl, rfl, rfl, rfl, sizeInfosL_map_aerase s.infos _, rfl, rfl, rfl, ?_⟩
    intro id hid
    exact alookupO_map_aerase_isSome hid
  · rw [if_neg hj]
    refine ⟨rfl, rfl, rfl, rfl, rfl, rfl, sizeInfosL_map_aerase s.infos _, rfl, rfl, rfl, ?_⟩
    intro id hid
    exact alookupO_map_aerase_isSome hid

theorem hireTail_spec (env : Env) (s : Workshop) (r : Nat) :
    (∀ res s', hireTail env s r = .inl (res, s') →
      res = .ok r ∧ s'.infos = s.infos ∧ s'.mostFree = s.mostFree ∧
        s'.maxQuota = s.maxQuota ∧ s'.facCalls = s.facCalls ∧
        s'.published = s.published ∧ s'.stats = hireOne s.stats ∧
        s'.closedTrace = s.closedTrace) ∧
    (∀ s', hireTail env s r = .inr s' → s' = evictCandidate s r) := by
  constructor
  · intro res s' h
    by_cases hh : env.health ((hget s r).worker) = true
    · rw [hireTail, if_pos hh] at h
      injection h with hp
      injection hp with h1 h2
      subst h2
      exact ⟨h1.symm, rfl, rfl, rfl, rfl, rfl, rfl, rfl⟩
    · rw [hireTail, if_neg hh] at h
      exact absurd h (by simp)
  · intro s' h
    by_cases hh : env.health ((hget s r).worker) = true
    · rw [hireTail, if_pos hh] at h
      exact absurd h (by simp)
    · rw [hireTail, if_neg hh] at h
      exact (Sum.inr.inj h).symm

theorem hintOkB_fields {u v : Workshop} (h1 : v.mostFree = u.mostFree)
    (h2 : v.infos = u.infos) : hintOkB v = hintOkB u := by
  unfold hintOkB
  rw [h1, h2]

theorem updateFreeLocked_fields (s : Workshop) :
    (updateFreeLocked s).infos = s.infos ∧ (updateFreeLocked s).maxQuota = s.maxQuota ∧
      (updateFreeLocked s).heap = s.heap ∧ (updateFreeLocked s).stats = s.stats ∧
      (updateFreeLocked s).published = s.published ∧
      (updateFreeLocked s).closedTrace = s.closedTrace ∧
      (updateFreeLocked s).facCalls = s.facCalls ∧
      (updateFreeLocked s).closed = s.closed := by
  unfold updateFreeLocked
  split
  · exact ⟨rfl, rfl, rfl, rfl, rfl, rfl, rfl, rfl⟩
  · split
    · exact ⟨rfl, rfl, rfl, rfl, rfl, rfl, rfl, rfl⟩
    · exact ⟨rfl, rfl, rfl, rfl, rfl, rfl, rfl, rfl⟩

theorem statsDoingOk_hireOne (st : WorkshopStats) : statsDoingOk (hireOne st) := rfl

theorem statsDoingOk_fireOne (st : WorkshopStats) : statsDoingOk (fireOne st) := rfl

/-- `addFn` characterized: a failure (factory error, caught panic, or the
nil-map assignment panic) changes only the factory-call count; a success
registers the fresh info. -/
theorem addFn_spec (env : Env) (s : Workshop) :
    (∀ e s', addFn env s = (.error e, s') → s' = { s with facCalls := s.facCalls + 1 }) ∧
    (∀ r s', addFn env s = (.ok r, s') →
      ∃ l w, s.infos = some l ∧ env.factory s.facCalls = .ok w ∧ r = s.nextRef ∧
        s' = { s with
          facCalls := s.facCalls + 1
          nextRef := r + 1
          heap := ainsert s.heap r ⟨w, 0, 0, s.wg⟩
          infos := some (ainsert l w r)
          stats := { s.stats with created := (s.stats.created + 1) % u64Mod
                                  worker := s.stats.worker + 1 } }) := by
  unfold addFn
  simp only [Nat.add_sub_cancel]
  cases hfo : env.factory s.facCalls with
  | ok w =>
    cases hinf : s.infos with
    | none =>
      refine ⟨fun e s' h => ?_, fun r s' h => ?_⟩
      · injection h with h1 h2
        exact h2.symm
      · injection h with h1 h2
        exact absurd h1 (by simp)
    | some l =>
      refine ⟨fun e s' h => ?_, fun r s' h => ?_⟩
      · injection h with h1 h2
        exact absurd h1 (by simp)
      · injection h with h1 h2
        injection h1 with h1
        exact ⟨l, w, rfl, rfl, h1.symm, by rw [← h2, ← h1]⟩
  | fail msg =>
    refine ⟨fun e s' h => ?_, fun r s' h => ?_⟩
    · injection h with h1 h2
      exact h2.symm
    · injection h with h1 h2
      exact absurd h1 (by simp)
  | panicked msg =>
    refine ⟨fun e s' h => ?_, fun r s' h => ?_⟩
    · injection h with h1 h2
      exact h2.symm
    · injection h with h1 h2
      exact absurd h1 (by simp)

theorem statsDoingOk_congr {st st' : WorkshopStats} (hd : st'.doing = st.doing)
    (hh : st'.hire = st.hire) (hf : st'.fire = st.fire)
    (h : statsDoingOk st) : statsDoingOk st' := by
  unfold statsDoingOk at h ⊢
  rw [hd, hh, hf]
  exact h

theorem poolPres_refl (s : Workshop) : PoolPres s s :=
  ⟨rfl, fun h => h, fun h => h, rfl⟩

theorem poolPres_trans {s t u : Workshop} (h1 : PoolPres s t) (h2 : PoolPres t u) :
    PoolPres s u := by
  obtain ⟨q1, z1, g1, p1⟩ := h1
  obtain ⟨q2, z2, g2, p2⟩ := h2
  refine ⟨q2.trans q1, fun hz => ?_, fun hg => g2 (g1 hg), p2.trans p1⟩
  have := z2 (by rw [q1]; exact z1 hz)
  rwa [q1] at this

theorem poolPres_of_fields {s s' : Workshop} (hq : s'.maxQuota = s.maxQuota)
    (hi : sizeInfos s' ≤ sizeInfos s) (hh : s'.stats.hire = s.stats.hire)
    (hf : s'.stats.fire = s.stats.fire) (hd : s'.stats.doing = s.stats.doing)
    (hp : s'.published = s.published) : PoolPres s s' :=
  ⟨hq, fun hz => le_trans hi hz, statsDoingOk_congr hd hh hf, hp⟩

theorem poolPres_updateFree (s : Workshop) : PoolPres s (updateFreeLocked s) := by
  obtain ⟨h1, h2, h3, h4, h5, h6, h7, h8⟩ := updateFreeLocked_fields s
  exact poolPres_of_fields h2 (by unfold sizeInfos; rw [h1]) (by rw [h4]) (by rw [h4])
    (by rw [h4]) h5

theorem poolPres_evictCandidate (s : Workshop) (r : Nat) :
    PoolPres s (evictCandidate s r) := by
  obtain ⟨h1, h2, h3, h4, h5, h6, h7, h8, h9, h10, h11⟩ := evictCandidate_spec s r
  exact poolPres_of_fields h2 h7 h8 h9 h10 h4

theorem poolPres_idleDec (s : Workshop) : PoolPres s (idleDec s) :=
  poolPres_of_fields rfl (le_refl _) rfl rfl rfl rfl

theorem poolPres_expireEvict (s : Workshop) (w : Nat) : PoolPres s (expireEvict s w) :=
  poolPres_of_fields rfl (sizeInfosL_map_aerase s.infos w) rfl rfl rfl rfl

theorem poolPres_hireTail_inl {env : Env} {X : Workshop} {r : Nat}
    {res₂ : Except String Nat} {s₂ : Workshop}
    (hth : hireTail env X r = .inl (res₂, s₂)) : PoolPres X s₂ := by
  obtain ⟨_, hi, _, hq, _, hp, hst, _⟩ := (hireTail_spec env X r).1 res₂ s₂ hth
  refine ⟨hq, fun hz => ?_, fun _ => ?_, hp⟩
  · unfold sizeInfos
    rw [hi]
    exact hz
  · rw [hst]
    exact statsDoingOk_hireOne _

theorem poolPres_hireTail_inr {env : Env} {X : Workshop} {r : Nat} {s₂ : Workshop}
    (hth : hireTail env X r = .inr s₂) : PoolPres X s₂ := by
  have h := (hireTail_spec env X r).2 s₂ hth
  subst h
  exact poolPres_evictCandidate X r

theorem poolPres_addFn_ok {env : Env} {s : Workshop} {r₁ : Nat} {s₁ : Workshop}
    (ha : addFn env s = (.ok r₁, s₁)) (hsz : sizeInfos s < s.maxQuota) :
    PoolPres s { s₁ with mostFree := some r₁ } := by
  obtain ⟨l, w, hinf, hfo, hr, hs₁⟩ := (addFn_spec env s).2 r₁ s₁ ha
  subst hs₁
  refine ⟨rfl, fun hz => ?_, fun hg => statsDoingOk_congr rfl rfl rfl hg, rfl⟩
  have h₂ : sizeInfos s = l.length := by
    unfold sizeInfos
    rw [hinf]
    rfl
  show sizeInfosL (some (ainsert l w r₁)) ≤ s.maxQuota
  calc sizeInfosL (some (ainsert l w r₁)) = (ainsert l w r₁).length := rfl
    _ ≤ l.length + 1 := ainsert_length_le l w r₁
    _ = sizeInfos s + 1 := by rw [h₂]
    _ ≤ s.maxQuota := hsz

/-- The master invariant of the `GET` loop: however `hireLocked` exits (or
runs out of fuel), the quota is unchanged, the registry stays within quota,
the `Doing` relation is preserved and nothing is published. -/
theorem hireLockedF_master (env : Env) : ∀ (fuel : Nat) (s : Workshop) (res) (s' : Workshop),
    hireLockedF env fuel s = (res, s') → PoolPres s s' := by
  intro fuel
  induction fuel with
  | zero =>
    intro s res s' h
    injection h with h1 h2
    subst h2
    exact poolPres_refl s
  | succ n ih =>
    intro s res s' h
    rw [hireLockedF] at h
    rcases hm : s.mostFree with _ | r
    · rw [hm] at h
      simp only [] at h
      by_cases hq : sizeInfos s ≥ s.maxQuota
      · rw [if_pos hq] at h
        injection h with h1 h2
        subst h2
        exact poolPres_refl s
      · rw [if_neg hq] at h
        rcases ha : addFn env s with ⟨res₁, s₁⟩
        rw [ha] at h
        cases res₁ with
        | error e =>
          simp only [] at h
          injection h with h1 h2
          subst h2
          have he := (addFn_spec env s).1 e s₁ ha
          subst he
          exact poolPres_of_fields rfl (le_refl _) rfl rfl rfl rfl
        | ok r₁ =>
          simp only [] at h
          have hpre := poolPres_addFn_ok ha (not_le.mp hq)
          rcases hth : hireTail env { s₁ with mostFree := some r₁ } r₁ with ⟨res₂, s₂⟩ | s₂
          · rw [hth] at h
            simp only [] at h
            injection h with h1 h2
            subst h2
            exact poolPres_trans hpre (poolPres_hireTail_inl hth)
          · rw [hth] at h
            simp only [] at h
            exact poolPres_trans (poolPres_trans hpre (poolPres_hireTail_inr hth)) (ih _ _ _ h)
    · rw [hm] at h
      simp only [] at h
      by_cases hc1 : sizeInfos s ≥ s.maxQuota ∨ (hget s r).jobNum = 0
      · rw [if_pos hc1] at h
        by_cases hj : (hget s r).jobNum = 0
        · rw [if_pos hj] at h
          by_cases hexp : env.now > (hget s r).idleExpire
          · rw [if_pos hexp] at h
            refine poolPres_trans ?_ (ih _ _ _ h)
            exact poolPres_trans (poolPres_idleDec s)
              (poolPres_trans (poolPres_expireEvict _ _) (poolPres_updateFree _))
          · rw [if_neg hexp] at h
            rcases hth : hireTail env (updateFreeLocked (idleDec s)) r with ⟨res₂, s₂⟩ | s₂
            · rw [hth] at h
              simp only [] at h
              injection h with h1 h2
              subst h2
              exact poolPres_trans
                (poolPres_trans (poolPres_idleDec s) (poolPres_updateFree _))
                (poolPres_hireTail_inl hth)
            · rw [hth] at h
              simp only [] at h
              exact poolPres_trans
                (poolPres_trans (poolPres_trans (poolPres_idleDec s) (poolPres_updateFree _))
                  (poolPres_hireTail_inr hth))
                (ih _ _ _ h)
        · rw [if_neg hj] at h
          rcases hth : hireTail env (updateFreeLocked s) r with ⟨res₂, s₂⟩ | s₂
          · rw [hth] at h
            simp only [] at h
            injection h with h1 h2
            subst h2
            exact poolPres_trans (poolPres_updateFree _) (poolPres_hireTail_inl hth)
          · rw [hth] at h
            simp only [] at h
            exact poolPres_trans
              (poolPres_trans (poolPres_updateFree _) (poolPres_hireTail_inr hth)) (ih _ _ _ h)
      · rw [if_neg hc1] at h
        have hq : sizeInfos s < s.maxQuota := by
          push_neg at hc1
          exact hc1.1
        rcases ha : addFn env s with ⟨res₁, s₁⟩
        rw [ha] at h
        cases res₁ with
        | error e =>
          simp only [] at h
          injection h with h1 h2
          subst h2
          have he := (addFn_spec env s).1 e s₁ ha
          subst he
          exact poolPres_of_fields rfl (le_refl _) rfl rfl rfl rfl
        | ok r₁ =>
          simp only [] at h
          have hpre := poolPres_addFn_ok ha hq
          rcases hth : hireTail env { s₁ with mostFree := some r₁ } r₁ with ⟨res₂, s₂⟩ | s₂
          · rw [hth] at h
            simp only [] at h
            injection h with h1 h2
            subst h2
            exact poolPres_trans hpre (poolPres_hireTail_inl hth)
          · rw [hth] at h
            simp only [] at h
            exact poolPres_trans (poolPres_trans hpre (poolPres_hireTail_inr hth)) (ih _ _ _ h)

theorem fireIdle_fields (env : Env) (s : Workshop) (r : Nat) :
    (fireIdle env s r).infos = s.infos ∧ (fireIdle env s r).mostFree = s.mostFree ∧
      (fireIdle env s r).maxQuota = s.maxQuota ∧ (fireIdle env s r).published = s.published ∧
      (fireIdle env s r).closedTrace = s.closedTrace ∧ (fireIdle env s r).facCalls = s.facCalls ∧
      (fireIdle env s r).stats.hire = s.stats.hire ∧ (fireIdle env s r).stats.fire = s.stats.fire ∧
      (fireIdle env s r).stats.doing = s.stats.doing ∧ (fireIdle env s r).closed = s.closed := by
  unfold fireIdle
  by_cases hj : (hget s r).jobNum = 0
  · rw [if_pos hj]
    exact ⟨rfl, rfl, rfl, rfl, rfl, rfl, rfl, rfl, rfl, rfl⟩
  · rw [if_neg hj]
    exact ⟨rfl, rfl, rfl, rfl, rfl, rfl, rfl, rfl, rfl, rfl⟩

theorem fireHint_fields (s : Workshop) (r : Nat) (j : Int) :
    (fireHint s r j).infos = s.infos ∧ (fireHint s r j).maxQuota = s.maxQuota ∧
      (fireHint s r j).published = s.published ∧ (fireHint s r j).closedTrace = s.closedTrace ∧
      (fireHint s r j).facCalls = s.facCalls ∧ (fireHint s r j).stats = s.stats ∧
      (fireHint s r j).closed = s.closed ∧
      ((fireHint s r j).mostFree = s.mostFree ∨ (fireHint s r j).mostFree = some r) := by
  unfold fireHint
  rcases hmf : s.mostFree with _ | m
  · exact ⟨rfl, rfl, rfl, rfl, rfl, rfl, rfl, Or.inr rfl⟩
  · simp only []
    by_cases hc : j ≥ (hget s m).jobNum
    · rw [if_pos hc]
      exact ⟨rfl, rfl, rfl, rfl, rfl, rfl, rfl, Or.inl hmf⟩
    · rw [if_neg hc]
      exact ⟨rfl, rfl, rfl, rfl, rfl, rfl, rfl, Or.inr rfl⟩

theorem fireFree_fields (env : Env) (s : Workshop) (r : Nat) :
    (fireFree env s r).infos = s.infos ∧ (fireFree env s r).maxQuota = s.maxQuota ∧
      (fireFree env s r).published = s.published ∧
      (fireFree env s r).closedTrace = s.closedTrace ∧
      (fireFree env s r).stats.hire = s.stats.hire ∧
      (fireFree env s r).stats.fire = s.stats.fire ∧
      (fireFree env s r).stats.doing = s.stats.doing ∧
      ((fireFree env s r).mostFree = s.mostFree ∨ (fireFree env s r).mostFree = some r) := by
  obtain ⟨i1, m1, q1, p1, c1, f1, h1, r1, d1, cl1⟩ := fireIdle_fields env (free s r) r
  obtain ⟨i2, q2, p2, c2, f2, st2, cl2, m2⟩ :=
    fireHint_fields (fireIdle env (free s r) r) r ((hget (free s r) r).jobNum)
  unfold fireFree
  refine ⟨i2.trans i1, q2.trans q1, p2.trans p1, c2.trans c1, ?_, ?_, ?_, ?_⟩
  · rw [st2]; exact h1
  · rw [st2]; exact r1
  · rw [st2]; exact d1
  · rcases m2 with m2 | m2
    · exact Or.inl (m2.trans m1)
    · exact Or.inr m2

theorem fireLocked_master (env : Env) (s : Workshop) (r : Nat) :
    (fireLocked env s r).maxQuota = s.maxQuota ∧
      sizeInfos (fireLocked env s r) ≤ sizeInfos s ∧
      statsDoingOk (fireLocked env s r).stats ∧
      (fireLocked env s r).published = s.published := by
  unfold fireLocked
  by_cases hh : env.health ((hget s r).worker) = true
  · rw [if_neg (not_not_intro hh)]
    obtain ⟨i2, q2, p2, c2, f2, r2, d2, m2⟩ :=
      fireFree_fields env { s with stats := fireOne s.stats } r
    refine ⟨q2, ?_, ?_, p2⟩
    · unfold sizeInfos
      rw [i2]
    · refine statsDoingOk_congr d2 f2 r2 ?_
      exact statsDoingOk_fireOne s.stats
  · rw [if_pos hh]
    refine ⟨rfl, ?_, ?_, rfl⟩
    · exact sizeInfosL_map_aerase s.infos _
    · exact statsDoingOk_congr rfl rfl rfl (statsDoingOk_fireOne s.stats)

theorem hintOkB_of_mem {s : Workshop} {r : Nat} {l : List (Nat × Nat)}
    (h1 : s.mostFree = some r) (h2 : s.infos = some l)
    (h3 : r ∈ l.map Prod.snd) : hintOkB s = true := by
  unfold hintOkB
  rw [h1]
  simp only []
  rw [h2]
  simp only []
  exact decide_eq_true h3

theorem hintOkB_elim {s : Workshop} {m : Nat} (hOk : hintOkB s = true)
    (hm : s.mostFree = some m) : ∃ l, s.infos = some l ∧ m ∈ l.map Prod.snd := by
  unfold hintOkB at hOk
  rw [hm] at hOk
  simp only [] at hOk
  cases hinf : s.infos with
  | none =>
    rw [hinf] at hOk
    simp at hOk
  | some l =>
    rw [hinf] at hOk
    simp only [] at hOk
    exact ⟨l, rfl, of_decide_eq_true hOk⟩

theorem refreshStep_cases (env : Env) (acc : Workshop × Int × Int × Bool) (e : Nat × Nat) :
    ((refreshStep env acc e).1 = acc.1 ∧ (refreshStep env acc e).2.2.2 = acc.2.2.2) ∨
      (∃ w, (refreshStep env acc e).1 =
          { acc.1 with
            infos := acc.1.infos.map (fun l => aerase l w)
            closedTrace := acc.1.closedTrace ++ [w]
            stats := { acc.1.stats with worker := acc.1.stats.worker - 1
                                        idle := acc.1.stats.idle - 1 } } ∧
        (refreshStep env acc e).2.2.2 = true) := by
  obtain ⟨s, mx, mn, su⟩ := acc
  unfold refreshStep
  simp only []
  by_cases hcond : (hget s e.2).jobNum = 0 ∧
      (¬ env.health (hget s e.2).worker = true ∨ env.now > (hget s e.2).idleExpire)
  · rw [if_pos hcond]
    exact Or.inr ⟨(hget s e.2).worker, rfl, rfl⟩
  · rw [if_neg hcond]
    exact Or.inl ⟨rfl, rfl⟩

theorem foldl_refreshStep_master (env : Env) :
    ∀ (l : List (Nat × Nat)) (acc : Workshop × Int × Int × Bool),
      PoolPres acc.1 (l.foldl (refreshStep env) acc).1 ∧
        (l.foldl (refreshStep env) acc).1.closed = acc.1.closed ∧
        (l.foldl (refreshStep env) acc).1.mostFree = acc.1.mostFree ∧
        (((l.foldl (refreshStep env) acc).1.infos = acc.1.infos ∧
            (l.foldl (refreshStep env) acc).2.2.2 = acc.2.2.2) ∨
          (l.foldl (refreshStep env) acc).2.2.2 = true) ∧
        (acc.2.2.2 = true → (l.foldl (refreshStep env) acc).2.2.2 = true) := by
  intro l
  induction l with
  | nil =>
    intro acc
    exact ⟨poolPres_refl _, rfl, rfl, Or.inl ⟨rfl, rfl⟩, fun h => h⟩
  | cons e t ih =>
    intro acc
    rw [List.foldl_cons]
    obtain ⟨A, B, C, D, E⟩ := ih (refreshStep env acc e)
    rcases refreshStep_cases env acc e with ⟨h1, h2⟩ | ⟨w, h1, h2⟩
    · refine ⟨?_, ?_, ?_, ?_, ?_⟩
      · rw [h1] at A
        exact A
      · rw [B, h1]
      · rw [C, h1]
      · rcases D with ⟨d1, d2⟩ | d
        · exact Or.inl ⟨by rw [d1, h1], by rw [d2, h2]⟩
        · exact Or.inr d
      · intro hsu
        exact E (by rw [h2]; exact hsu)
    · refine ⟨?_, ?_, ?_, ?_, ?_⟩
      · refine poolPres_trans ?_ A
        rw [h1]
        exact poolPres_of_fields rfl (sizeInfosL_map_aerase acc.1.infos w) rfl rfl rfl rfl
      · rw [B, h1]
      · rw [C, h1]
      · exact Or.inr (E h2)
      · intro _
        exact E h2
  
theorem refreshLocked_master (env : Env) (s : Workshop) :
    (refreshLocked env s).maxQuota = s.maxQuota ∧
      (sizeInfos s ≤ s.maxQuota → sizeInfos (refreshLocked env s) ≤ s.maxQuota) ∧
      (statsDoingOk s.stats → statsDoingOk (refreshLocked env s).stats ∧
        statsDoingOk (refreshLocked env s).published) ∧
      (refreshLocked env s).closed = s.closed ∧
      (hintOkB s = true → hintOkB (refreshLocked env s) = true) := by
  unfold refreshLocked refreshFinish
  obtain ⟨A, B, C, D, E⟩ :=
    foldl_refreshStep_master env (s.infos.getD []) (s, 0, maxInt32, false)
  obtain ⟨u1, u2, u3, u4, u5, u6, u7, u8⟩ :=
    updateFreeLocked_fields ((s.infos.getD []).foldl (refreshStep env) (s, 0, maxInt32, false)).1
  obtain ⟨Aq, Az, Ag, Ap⟩ := A
  by_cases hsu :
      ((s.infos.getD []).foldl (refreshStep env) (s, 0, maxInt32, false)).2.2.2 = true
  · rw [if_pos hsu]
    refine ⟨by rw [writeStats, u2, Aq], fun hz => ?_, fun hg => ?_, by rw [writeStats, u8, B], ?_⟩
    · show sizeInfosL (updateFreeLocked _).infos ≤ s.maxQuota
      rw [u1]
      exact Az hz
    · have hg' : statsDoingOk
          (updateFreeLocked ((s.infos.getD []).foldl (refreshStep env)
            (s, 0, maxInt32, false)).1).stats := by
        rw [u4]
        exact Ag hg
      constructor
      · exact statsDoingOk_congr rfl rfl rfl hg'
      · exact statsDoingOk_congr rfl rfl rfl hg'
    · intro _
      refine Eq.trans ?_ (hintOkB_updateFree
        ((s.infos.getD []).foldl (refreshStep env) (s, 0, maxInt32, false)).1)
      exact hintOkB_fields rfl rfl
  · rw [if_neg hsu]
    refine ⟨by rw [writeStats, Aq], fun hz => ?_, fun hg => ?_, by rw [writeStats, B], ?_⟩
    · show sizeInfosL ((s.infos.getD []).foldl (refreshStep env)
        (s, 0, maxInt32, false)).1.infos ≤ s.maxQuota
      exact Az hz
    · have hg' := Ag hg
      exact ⟨statsDoingOk_congr rfl rfl rfl hg', statsDoingOk_congr rfl rfl rfl hg'⟩
    · intro hOk
      rcases D with ⟨d1, d2⟩ | d
      · refine Eq.trans (hintOkB_fields (u := s) ?_ ?_) hOk
        · rw [writeStats, C]
        · rw [writeStats, d1]
      · exact absurd d hsu

theorem closeWorkshop_master (env : Env) (s : Workshop) :
    (closeWorkshop env s).maxQuota = s.maxQuota ∧
      (sizeInfos s ≤ s.maxQuota → sizeInfos (closeWorkshop env s) ≤ s.maxQuota) ∧
      (statsDoingOk s.stats ∧ statsDoingOk s.published →
        statsDoingOk (closeWorkshop env s).stats ∧
          statsDoingOk (closeWorkshop env s).published) := by
  unfold closeWorkshop
  by_cases hc : s.closed = true
  · rw [if_pos hc]
    exact ⟨rfl, fun h => h, fun h => h⟩
  · rw [if_neg hc]
    obtain ⟨Rq, Rz, Rg, Rc, Rh⟩ := refreshLocked_master env
      { s with
        closed := true
        closedTrace := s.closedTrace ++
          (s.infos.getD []).map (fun (e : Nat × Nat) => (hget s e.2).worker)
        infos := none
        stats := { s.stats with idle := 0, worker := 0 } }
    refine ⟨Rq, fun hz => ?_, fun hg => ?_⟩
    · have h0 := Rz (Nat.zero_le _)
      calc sizeInfos _ ≤ _ := h0
        _ = s.maxQuota := rfl
    · exact Rg (statsDoingOk_congr rfl rfl rfl hg.1)

theorem hire_state (env : Env) (fuel : Nat) (s : Workshop) :
    (hire env fuel s).2 = writeStats (hireLockedF env fuel s).2 := by
  unfold hire
  rcases h1 : hireLockedF env fuel s with ⟨res, s₁⟩
  cases res with
  | none => rfl
  | some e =>
    cases e with
    | error e => rfl
    | ok r => rfl

theorem fire_master (env : Env) (w : Option Nat) (s : Workshop) :
    (fire env w s).maxQuota = s.maxQuota ∧
      (sizeInfos s ≤ s.maxQuota → sizeInfos (fire env w s) ≤ s.maxQuota) ∧
      (statsDoingOk s.stats ∧ statsDoingOk s.published →
        statsDoingOk (fire env w s).stats ∧ statsDoingOk (fire env w s).published) := by
  cases w with
  | none => exact ⟨rfl, fun h => h, fun h => h⟩
  | some id =>
    cases hlk : lookupWorker s id with
    | none =>
      have hf : fire env (some id) s = { s with closedTrace := s.closedTrace ++ [id] } := by
        simp [fire, hlk]
      rw [hf]
      exact ⟨rfl, fun h => h, fun h => h⟩
    | some r =>
      have hf : fire env (some id) s = writeStats (fireLocked env s r) := by
        simp [fire, hlk]
      rw [hf]
      obtain ⟨Fq, Fz, Fg, Fp⟩ := fireLocked_master env s r
      refine ⟨Fq, fun hz => ?_, fun hg => ?_⟩
      · calc sizeInfos (writeStats (fireLocked env s r)) =
            sizeInfos (fireLocked env s r) := rfl
          _ ≤ sizeInfos s := Fz
          _ ≤ s.maxQuota := hz
      · exact ⟨statsDoingOk_congr rfl rfl rfl Fg, statsDoingOk_congr rfl rfl rfl Fg⟩

theorem callback_master (env : Env) (fuel : Nat) (s : Workshop) :
    (callback env fuel s).2.maxQuota = s.maxQuota ∧
      (sizeInfos s ≤ s.maxQuota → sizeInfos (callback env fuel s).2 ≤ s.maxQuota) ∧
      (statsDoingOk s.stats ∧ statsDoingOk s.published →
        statsDoingOk (callback env fuel s).2.stats ∧
          statsDoingOk (callback env fuel s).2.published) := by
  unfold callback
  by_cases hc : s.closed = true
  · rw [if_pos hc]
    exact ⟨rfl, fun h => h, fun h => h⟩
  · rw [if_neg hc]
    rcases h1 : hireLockedF env fuel s with ⟨res, s₁⟩
    simp only []
    obtain ⟨Pq, Pz, Pg, Pp⟩ := hireLockedF_master env fuel s res s₁ h1
    cases res with
    | none =>
      refine ⟨Pq, fun hz => Pz hz, fun hg => ?_⟩
      exact ⟨statsDoingOk_congr rfl rfl rfl (Pg hg.1),
        statsDoingOk_congr rfl rfl rfl (Pg hg.1)⟩
    | some e =>
      cases e with
      | error e =>
        refine ⟨Pq, fun hz => Pz hz, fun hg => ?_⟩
        exact ⟨statsDoingOk_congr rfl rfl rfl (Pg hg.1),
          statsDoingOk_congr rfl rfl rfl (Pg hg.1)⟩
      | ok r =>
        simp only []
        by_cases hpr :
            (lookupWorker (writeStats s₁) ((hget (writeStats s₁) r).worker)).isSome = true
        · rw [if_pos hpr]
          obtain ⟨Fq, Fz, Fg, Fp⟩ := fireLocked_master env (writeStats s₁) r
          refine ⟨Fq.trans Pq, fun hz => ?_, fun hg => ?_⟩
          · calc sizeInfos (writeStats (fireLocked env (writeStats s₁) r)) =
                sizeInfos (fireLocked env (writeStats s₁) r) := rfl
              _ ≤ sizeInfos (writeStats s₁) := Fz
              _ ≤ s.maxQuota := Pz hz
          · exact ⟨statsDoingOk_congr rfl rfl rfl Fg, statsDoingOk_congr rfl rfl rfl Fg⟩
        · rw [if_neg hpr]
          refine ⟨Pq, fun hz => Pz hz, fun hg => ?_⟩
          exact ⟨statsDoingOk_congr rfl rfl rfl (Pg hg.1),
            statsDoingOk_congr rfl rfl rfl (Pg hg.1)⟩

theorem step_master (o : Op) (s : Workshop) :
    (step o s).maxQuota = s.maxQuota ∧
      (sizeInfos s ≤ s.maxQuota → sizeInfos (step o s) ≤ s.maxQuota) ∧
      (statsDoingOk s.stats ∧ statsDoingOk s.published →
        statsDoingOk (step o s).stats ∧ statsDoingOk (step o s).published) := by
  cases o with
  | opHire env fuel =>
    have hs : step (.opHire env fuel) s = writeStats (hireLockedF env fuel s).2 :=
      hire_state env fuel s
    rcases h1 : hireLockedF env fuel s with ⟨res, s₁⟩
    rw [h1] at hs
    rw [hs]
    obtain ⟨Pq, Pz, Pg, Pp⟩ := hireLockedF_master env fuel s res s₁ h1
    refine ⟨Pq, fun hz => Pz hz, fun hg => ?_⟩
    exact ⟨statsDoingOk_congr rfl rfl rfl (Pg hg.1),
      statsDoingOk_congr rfl rfl rfl (Pg hg.1)⟩
  | opFire env w => exact fire_master env w s
  | opCallback env fuel => exact callback_master env fuel s
  | opClose env => exact closeWorkshop_master env s
  | opReap env =>
    show (reap env s).maxQuota = s.maxQuota ∧
      (sizeInfos s ≤ s.maxQuota → sizeInfos (reap env s) ≤ s.maxQuota) ∧
      (statsDoingOk s.stats ∧ statsDoingOk s.published →
        statsDoingOk (reap env s).stats ∧ statsDoingOk (reap env s).published)
    unfold reap
    by_cases hc : s.closed = true
    · rw [if_pos hc]
      exact ⟨rfl, fun h => h, fun h => h⟩
    · rw [if_neg hc]
      obtain ⟨Rq, Rz, Rg, Rc, Rh⟩ := refreshLocked_master env s
      exact ⟨Rq, Rz, fun hg => Rg hg.1⟩

theorem run_master : ∀ (ops : List Op) (s : Workshop),
    (run ops s).maxQuota = s.maxQuota ∧
      (sizeInfos s ≤ s.maxQuota → sizeInfos (run ops s) ≤ s.maxQuota) ∧
      (statsDoingOk s.stats ∧ statsDoingOk s.published →
        statsDoingOk (run ops s).stats ∧ statsDoingOk (run ops s).published) := by
  intro ops
  induction ops with
  | nil => intro s; exact ⟨rfl, fun h => h, fun h => h⟩
  | cons o t ih =>
    intro s
    obtain ⟨Sq, Sz, Sg⟩ := step_master o s
    obtain ⟨Tq, Tz, Tg⟩ := ih (step o s)
    refine ⟨?_, fun hz => ?_, fun hg => ?_⟩
    · exact Tq.trans Sq
    · have h1 := Tz (by rw [Sq]; exact Sz hz)
      show sizeInfos (run t (step o s)) ≤ s.maxQuota
      rw [← Sq]
      exact h1
    · exact Tg (Sg hg)

theorem hintOkB_none {s : Workshop} (h : s.mostFree = none) : hintOkB s = true := by
  unfold hintOkB
  rw [h]

theorem hintOkB_unhealthyRemove {s : Workshop} {id r m : Nat} {l : List (Nat × Nat)}
    (hm : s.mostFree = some m) (hinf : s.infos = some l) (hl : alookup l id = some r)
    (hmr : m ≠ r) (hmem : m ∈ l.map Prod.snd) :
    hintOkB (unhealthyRemove s id) = true := by
  refine hintOkB_of_mem (r := m) (l := aerase l id) hm ?_ (mem_snd_aerase hl hmr hmem)
  show s.infos.map (fun l => aerase l id) = some (aerase l id)
  rw [hinf]
  rfl

theorem alookupO_elim {inf : Option (List (Nat × Nat))} {id r : Nat}
    (h : alookupO inf id = some r) : ∃ l, inf = some l ∧ alookup l id = some r := by
  cases inf with
  | none => simp [alookupO] at h
  | some l => exact ⟨l, rfl, by simpa [alookupO] using h⟩

theorem fire_hint_pres (env : Env) (s : Workshop) (id r : Nat)
    (hOk : hintOkB s = true) (hl : lookupWorker s id = some r)
    (hw : (hget s r).worker = id)
    (hcond : env.health id = true ∨ s.mostFree ≠ some r) :
    hintOkB (fire env (some id) s) = true := by
  have hfire : fire env (some id) s = writeStats (fireLocked env s r) := by
    simp [fire, hl]
  rw [hfire]
  show hintOkB (fireLocked env s r) = true
  unfold fireLocked
  by_cases hh : env.health ((hget s r).worker) = true
  · rw [if_neg (not_not_intro hh)]
    obtain ⟨i2, q2, p2, c2, f2, r2, d2, m2⟩ :=
      fireFree_fields env { s with stats := fireOne s.stats } r
    rcases m2 with m2 | m2
    · exact Eq.trans (hintOkB_fields (u := s) m2 i2) hOk
    · obtain ⟨l, hinf, hl'⟩ := alookupO_elim hl
      exact hintOkB_of_mem m2 (i2.trans hinf) (alookup_mem_snd hl')
  · rw [if_pos hh, hw]
    show hintOkB (unhealthyRemove { s with stats := fireOne s.stats } id) = true
    have hne : s.mostFree ≠ some r := by
      rcases hcond with hc | hc
      · rw [← hw] at hc
        exact absurd hc hh
      · exact hc
    rcases hmo : s.mostFree with _ | m
    · exact hintOkB_none rfl
    · have hmr : m ≠ r := by
        intro e
        exact hne (by rw [hmo, e])
      obtain ⟨l, hinf, hl'⟩ := alookupO_elim hl
      obtain ⟨l2, hinf2, hmem⟩ := hintOkB_elim hOk hmo
      rw [hinf] at hinf2
      injection hinf2 with e2
      subst e2
      exact hintOkB_unhealthyRemove rfl hinf hl' hmr hmem

theorem hireLockedF_ok_hintOk (env : Env) :
    ∀ (fuel : Nat) (s : Workshop) (x : Nat) (s' : Workshop),
      hireLockedF env fuel s = (some (.ok x), s') → hintOkB s' = true := by
  intro fuel
  induction fuel with
  | zero =>
    intro s x s' h
    injection h with h1 h2
    exact absurd h1 (by simp)
  | succ n ih =>
    intro s x s' h
    rw [hireLockedF] at h
    rcases hm : s.mostFree with _ | r
    · rw [hm] at h
      simp only [] at h
      by_cases hq : sizeInfos s ≥ s.maxQuota
      · rw [if_pos hq] at h
        injection h with h1 h2
        injection h1 with h1
        exact absurd h1 (by simp)
      · rw [if_neg hq] at h
        rcases ha : addFn env s with ⟨res₁, s₁⟩
        rw [ha] at h
        cases res₁ with
        | error e =>
          simp only [] at h
          injection h with h1 h2
          injection h1 with h1
          exact absurd h1 (by simp)
        | ok r₁ =>
          simp only [] at h
          rcases hth : hireTail env { s₁ with mostFree := some r₁ } r₁ with ⟨res₂, s₂⟩ | s₂
          · rw [hth] at h
            simp only [] at h
            injection h with h1 h2
            subst h2
            obtain ⟨_, hi, hmf, _, _, _, _, _⟩ := (hireTail_spec env _ r₁).1 res₂ s₂ hth
            refine Eq.trans (hintOkB_fields hmf hi) ?_
            obtain ⟨l, w, hinf, _, _, hs₁⟩ := (addFn_spec env s).2 r₁ s₁ ha
            subst hs₁
            exact hintOkB_of_mem rfl rfl (mem_snd_ainsert_self l w r₁)
          · rw [hth] at h
            simp only [] at h
            exact ih _ _ _ h
    · rw [hm] at h
      simp only [] at h
      by_cases hc1 : sizeInfos s ≥ s.maxQuota ∨ (hget s r).jobNum = 0
      · rw [if_pos hc1] at h
        by_cases hj : (hget s r).jobNum = 0
        · rw [if_pos hj] at h
          by_cases hexp : env.now > (hget s r).idleExpire
          · rw [if_pos hexp] at h
            exact ih _ _ _ h
          · rw [if_neg hexp] at h
            rcases hth : hireTail env (updateFreeLocked (idleDec s)) r with ⟨res₂, s₂⟩ | s₂
            · rw [hth] at h
              simp only [] at h
              injection h with h1 h2
              subst h2
              obtain ⟨_, hi, hmf, _, _, _, _, _⟩ := (hireTail_spec env _ r).1 res₂ s₂ hth
              exact Eq.trans (hintOkB_fields hmf hi) (hintOkB_updateFree _)
            · rw [hth] at h
              simp only [] at h
              exact ih _ _ _ h
        · rw [if_neg hj] at h
          rcases hth : hireTail env (updateFreeLocked s) r with ⟨res₂, s₂⟩ | s₂
          · rw [hth] at h
            simp only [] at h
            injection h with h1 h2
            subst h2
            obtain ⟨_, hi, hmf, _, _, _, _, _⟩ := (hireTail_spec env _ r).1 res₂ s₂ hth
            exact Eq.trans (hintOkB_fields hmf hi) (hintOkB_updateFree _)
          · rw [hth] at h
            simp only [] at h
            exact ih _ _ _ h
      · rw [if_neg hc1] at h
        rcases ha : addFn env s with ⟨res₁, s₁⟩
        rw [ha] at h
        cases res₁ with
        | error e =>
          simp only [] at h
          injection h with h1 h2
          injection h1 with h1
          exact absurd h1 (by simp)
        | ok r₁ =>
          simp only [] at h
          rcases hth : hireTail env { s₁ with mostFree := some r₁ } r₁ with ⟨res₂, s₂⟩ | s₂
          · rw [hth] at h
            simp only [] at h
            injection h with h1 h2
            subst h2
            obtain ⟨_, hi, hmf, _, _, _, _, _⟩ := (hireTail_spec env _ r₁).1 res₂ s₂ hth
            refine Eq.trans (hintOkB_fields hmf hi) ?_
            obtain ⟨l, w, hinf, _, _, hs₁⟩ := (addFn_spec env s).2 r₁ s₁ ha
            subst hs₁
            exact hintOkB_of_mem rfl rfl (mem_snd_ainsert_self l w r₁)
          · rw [hth] at h
            simp only [] at h
            exact ih _ _ _ h

theorem addFn_fails (env : Env) (hfac : ∀ n w, env.factory n ≠ FacOutcome.ok w)
    (s : Workshop) :
    ∃ e, addFn env s = (.error e, { s with facCalls := s.facCalls + 1 }) := by
  rcases ha : addFn env s with ⟨res, s₁⟩
  cases res with
  | ok r =>
    obtain ⟨l, w, _, hfo, _, _⟩ := (addFn_spec env s).2 r s₁ ha
    exact absurd hfo (hfac _ _)
  | error e =>
    have he := (addFn_spec env s).1 e s₁ ha
    exact ⟨e, by rw [← he]⟩

/-- Under a factory that never succeeds, the `GET` loop can only finish
with an error once the factory has been invoked, and registry membership
never grows during the call. -/
theorem hireLockedF_facfail (env : Env) (hfac : ∀ n w, env.factory n ≠ FacOutcome.ok w) :
    ∀ (fuel : Nat) (s : Workshop),
      ((hireLockedF env fuel s).2.facCalls ≠ s.facCalls →
        ∃ e, (hireLockedF env fuel s).1 = some (.error e)) ∧
      (∀ id, (lookupWorker (hireLockedF env fuel s).2 id).isSome →
        (lookupWorker s id).isSome) := by
  intro fuel
  induction fuel with
  | zero =>
    intro s
    exact ⟨fun h => absurd rfl h, fun id h => h⟩
  | succ n ih =>
    intro s
    rw [hireLockedF]
    rcases hm : s.mostFree with _ | r
    · simp only []
      by_cases hq : sizeInfos s ≥ s.maxQuota
      · rw [if_pos hq]
        exact ⟨fun h => absurd rfl h, fun id h => h⟩
      · rw [if_neg hq]
        obtain ⟨e, ha⟩ := addFn_fails env hfac s
        rw [ha]
        simp only []
        exact ⟨fun _ => ⟨e, rfl⟩, fun id h => h⟩
    · simp only []
      by_cases hc1 : sizeInfos s ≥ s.maxQuota ∨ (hget s r).jobNum = 0
      · rw [if_pos hc1]
        by_cases hj : (hget s r).jobNum = 0
        · rw [if_pos hj]
          by_cases hexp : env.now > (hget s r).idleExpire
          · rw [if_pos hexp]
            obtain ⟨A, B⟩ := ih (updateFreeLocked (expireEvict (idleDec s) ((hget s r).worker)))
            have hfc : (updateFreeLocked (expireEvict (idleDec s) ((hget s r).worker))).facCalls =
                s.facCalls :=
              (updateFreeLocked_fields _).2.2.2.2.2.2.1
            refine ⟨fun h => A (by rw [hfc]; exact h), fun id h => ?_⟩
            have h1 := B id h
            have h2 : (updateFreeLocked (expireEvict (idleDec s) ((hget s r).worker))).infos =
                (idleDec s).infos.map (fun l => aerase l ((hget s r).worker)) :=
              (updateFreeLocked_fields _).1
            unfold lookupWorker at h1 ⊢
            rw [h2] at h1
            exact alookupO_map_aerase_isSome h1
          · rw [if_neg hexp]
            rcases hth : hireTail env (updateFreeLocked (idleDec s)) r with ⟨res₂, s₂⟩ | s₂
            · simp only []
              obtain ⟨_, hi, _, _, hfc, _, _, _⟩ :=
                (hireTail_spec env (updateFreeLocked (idleDec s)) r).1 res₂ s₂ hth
              refine ⟨fun h => absurd ?_ h, fun id h => ?_⟩
              · rw [hfc]
                exact (updateFreeLocked_fields _).2.2.2.2.2.2.1
              · unfold lookupWorker at h ⊢
                rw [hi, (updateFreeLocked_fields _).1] at h
                exact h
            · simp only []
              obtain ⟨A, B⟩ := ih s₂
              have hev := (hireTail_spec env (updateFreeLocked (idleDec s)) r).2 s₂ hth
              subst hev
              have hfc : (evictCandidate (updateFreeLocked (idleDec s)) r).facCalls =
                  s.facCalls := by
                rw [(evictCandidate_spec _ r).2.2.1]
                exact (updateFreeLocked_fields _).2.2.2.2.2.2.1
              refine ⟨fun h => A (by rw [hfc]; exact h), fun id h => ?_⟩
              have h1 := B id h
              have h2 := (evictCandidate_spec (updateFreeLocked (idleDec s)) r).2.2.2.2.2.2.2.2.2.2
              have h3 := h2 id h1
              unfold lookupWorker at h3 ⊢
              rw [(updateFreeLocked_fields (idleDec s)).1] at h3
              exact h3
        · rw [if_neg hj]
          rcases hth : hireTail env (updateFreeLocked s) r with ⟨res₂, s₂⟩ | s₂
          · simp only []
            obtain ⟨_, hi, _, _, hfc, _, _, _⟩ :=
              (hireTail_spec env (updateFreeLocked s) r).1 res₂ s₂ hth
            refine ⟨fun h => absurd ?_ h, fun id h => ?_⟩
            · rw [hfc]
              exact (updateFreeLocked_fields _).2.2.2.2.2.2.1
            · unfold lookupWorker at h ⊢
              rw [hi, (updateFreeLocked_fields _).1] at h
              exact h
          · simp only []
            obtain ⟨A, B⟩ := ih s₂
            have hev := (hireTail_spec env (updateFreeLocked s) r).2 s₂ hth
            subst hev
            have hfc : (evictCandidate (updateFreeLocked s) r).facCalls = s.facCalls := by
              rw [(evictCandidate_spec _ r).2.2.1]
              exact (updateFreeLocked_fields _).2.2.2.2.2.2.1
            refine ⟨fun h => A (by rw [hfc]; exact h), fun id h => ?_⟩
            have h1 := B id h
            have h3 := (evictCandidate_spec (updateFreeLocked s) r).2.2.2.2.2.2.2.2.2.2 id h1
            unfold lookupWorker at h3 ⊢
            rw [(updateFreeLocked_fields s).1] at h3
            exact h3
      · rw [if_neg hc1]
        obtain ⟨e, ha⟩ := addFn_fails env hfac s
        rw [ha]
        simp only []
        exact ⟨fun _ => ⟨e, rfl⟩, fun id h => h⟩

theorem hire_parts (env : Env) (fuel : Nat) (s : Workshop) :
    (hire env fuel s).2 = writeStats (hireLockedF env fuel s).2 ∧
      (∀ e, (hireLockedF env fuel s).1 = some (.error e) →
        (hire env fuel s).1 = some (.error e)) := by
  unfold hire
  rcases h1 : hireLockedF env fuel s with ⟨res, s₁⟩
  cases res with
  | none =>
    refine ⟨rfl, fun e he => ?_⟩
    simp at he
  | some ex =>
    cases ex with
    | error e => exact ⟨rfl, fun e' he => he⟩
    | ok r =>
      refine ⟨rfl, fun e he => ?_⟩
      simp at he

/-! Claim theorems. -/

/-- C10. `Fire(nil)` is a safe no-op: for every pool state and environment
it returns the state unchanged — nothing is closed, no registry change, no
stats change, no snapshot republication. -/
theorem fire_nil_noop (env : Env) (s : Workshop) : fire env none s = s := rfl

/-- C6. `Fire` on a worker that is not in the registry best-effort closes
it and changes nothing else: the resulting state differs from the input
only by the recorded `Close()` call — registry, stats and the published
snapshot are untouched (no `writeStats` happens on this path), so a double
release of the same worker is harmless. -/
theorem fire_unknown_worker_close_only (env : Env) (s : Workshop) (id : Nat)
    (h : lookupWorker s id = none) :
    fire env (some id) s = { s with closedTrace := s.closedTrace ++ [id] } := by
  simp [fire, h]

/-- Witness for C6 at a concrete input: worker 9 is unknown to `wsA`. -/
theorem fire_unknown_worker_close_only_witness :
    lookupWorker wsA 9 = none ∧
      fire envGood (some 9) wsA = { wsA with closedTrace := wsA.closedTrace ++ [9] } :=
  ⟨rfl, fire_unknown_worker_close_only envGood wsA 9 rfl⟩

/-- C1. For every operation sequence (Hire, Fire, Callback, Close, Reaper
cycles, each under an arbitrary environment) run from a freshly constructed
workshop with arbitrary constructor parameters, the registry holds at most
`maxQuota` entries at every observation point (every prefix of a sequence
is itself a sequence, so this covers all intermediate states; fuel
exhaustion surfaces every internal `GET` iteration boundary as well). -/
theorem registry_size_le_maxQuota (maxQuota maxIdleDuration : Int) (ops : List Op) :
    sizeInfos (run ops (newWorkshop maxQuota maxIdleDuration)) ≤
      (run ops (newWorkshop maxQuota maxIdleDuration)).maxQuota := by
  obtain ⟨Rq, Rz, _⟩ := run_master ops (newWorkshop maxQuota maxIdleDuration)
  rw [Rq]
  exact Rz (Nat.zero_le _)

/-- C8. At every observation point of every operation sequence from a fresh
workshop, the published snapshot satisfies
`DoingCount = int32(HireTotal - FireTotal)` (the `uint64` subtraction and
`int32` conversion the source performs in `hireOne`/`fireOne`). -/
theorem doing_eq_hire_sub_fire (maxQuota maxIdleDuration : Int) (ops : List Op) :
    (run ops (newWorkshop maxQuota maxIdleDuration)).published.doing =
      doingOf (run ops (newWorkshop maxQuota maxIdleDuration)).published.hire
        (run ops (newWorkshop maxQuota maxIdleDuration)).published.fire := by
  obtain ⟨_, _, Rg⟩ := run_master ops (newWorkshop maxQuota maxIdleDuration)
  have h0 : statsDoingOk ({} : WorkshopStats) := by
    show ({} : WorkshopStats).doing =
      doingOf ({} : WorkshopStats).hire ({} : WorkshopStats).fire
    decide
  exact (Rg ⟨h0, h0⟩).2

/-- C2 (counterexample). `Hire` after `Close` does not fail with
`ErrWorkshopClosed`: the source's `Hire` never checks `closeCh`, so on a
freshly closed workshop it runs the worker factory, the insertion into the
nil map panics, and the recovered panic("assignment to entry in nil map")
is returned instead of the PoolClosed error. -/
theorem hire_after_close_not_poolClosed :
    (hire envGood 5 wsClosed).1 = some (.error nilMapAssign) ∧
      nilMapAssign ≠ errWorkshopClosed :=
  ⟨rfl, by decide⟩

/-- C2 (amended). After shutdown has begun, every `Callback` call fails
immediately with `ErrWorkshopClosed`, does not invoke `fn`, and leaves the
state untouched. (`Hire` has no such guard — see the counterexample.) -/
theorem callback_after_close_rejects (env : Env) (fuel : Nat) (s : Workshop)
    (h : s.closed = true) :
    callback env fuel s = (some (some errWorkshopClosed, false), s) := by
  simp [callback, h]

/-- Witness for the amended C2 on a concrete closed workshop. -/
theorem callback_after_close_rejects_witness :
    wsClosed.closed = true ∧
      callback envGood 5 wsClosed = (some (some errWorkshopClosed, false), wsClosed) :=
  ⟨rfl, callback_after_close_rejects envGood 5 wsClosed rfl⟩

/-- C3 (code divergence). On a fresh quota-1 workshop whose factory yields
an unhealthy worker and then a healthy one, the `GET` loop of `hireLocked`
is still running after `registry.size + 1 = 1` iterations (and after 2),
completes only at the third iteration, and has invoked the factory twice —
the claimed bound of "registry size plus one factory attempt" does not
hold of the source's loop. -/
theorem hire_loop_exceeds_spec_bound :
    sizeInfos (newWorkshop 1 5) = 0 ∧
      (hireLockedF envRetry (sizeInfos (newWorkshop 1 5) + 1) (newWorkshop 1 5)).1 = none ∧
      (hireLockedF envRetry 2 (newWorkshop 1 5)).1 = none ∧
      (hire envRetry 3 (newWorkshop 1 5)).1 = some (.ok 2) ∧
      (hire envRetry 3 (newWorkshop 1 5)).2.facCalls = 2 :=
  ⟨rfl, rfl, rfl, rfl, rfl⟩

/-- C4 (code divergence). A completed `Hire` + `Fire` of a healthy worker
never moves the workshop's own WaitGroup counter off 0: `workerInfo` holds
a by-value copy of the WaitGroup (`wg: w.wg`), so `use`/`free` increment
and decrement the copy (the handle's `wg` goes 1 → 0) while the global
in-flight counter `w.wg` is untouched by the `Fire`, even though
`FireTotal` is incremented and `jobNum` is decremented. -/
theorem fire_does_not_touch_global_counter :
    wsA.stats.hire = 1 ∧ wsA.wg = 0 ∧ (hget wsA 0).wg = 1 ∧
      wsIdle.wg = 0 ∧ wsIdle.stats.fire = 1 ∧
      (hget wsIdle 0).jobNum = 0 ∧ (hget wsIdle 0).wg = 0 :=
  ⟨rfl, rfl, rfl, rfl, rfl, rfl, rfl⟩

/-- C5 (counterexample). Firing registered worker 5 while its health probe
fails removes it from the registry and decrements `WorkerCount` without
touching `IdleCount` — but its `Close()` is never invoked (the recorded
close trace stays empty), contradicting the claim that the worker is
destroyed. -/
theorem fire_unhealthy_no_close_counterexample :
    lookupWorker wsA 5 = some 0 ∧ envSick.health 5 = false ∧
      wsA.stats.worker = 1 ∧ wsA.stats.idle = 0 ∧ wsA.closedTrace = [] ∧
      wsDangling.closedTrace = [] ∧ lookupWorker wsDangling 5 = none ∧
      wsDangling.stats.worker = 0 ∧ wsDangling.stats.idle = 0 :=
  ⟨rfl, rfl, rfl, rfl, rfl, rfl, rfl, rfl, rfl⟩

/-- C7 (counterexample). A `Hire` whose factory invocation fails can still
change registry membership: starting from `wsIdle` (worker 5 idle, expiry
10) at time 11, `Hire` first evicts the expired worker 5, then invokes the
factory, which fails with "boom"; `Hire` returns that error but the
registry shrank from one entry to none. -/
theorem hire_factory_fail_registry_changed :
    sizeInfos wsIdle = 1 ∧
      (hire envBoomLate 3 wsIdle).1 = some (.error "boom") ∧
      (hire envBoomLate 3 wsIdle).2.infos = some [] :=
  ⟨rfl, rfl, rfl⟩

/-- C9 (counterexample). After the reachable two-operation sequence
`Hire` (worker 5, healthy) then `Fire` of worker 5 while unhealthy, the
Selector hint `mostFree` is present (reference 0) but the registry is
empty: `fireLocked`'s unhealthy branch deletes the hinted handle without
refreshing the hint. -/
theorem hint_dangles_after_unhealthy_fire :
    wsDangling.mostFree = some 0 ∧ wsDangling.infos = some [] :=
  ⟨rfl, rfl⟩

/-- C5 (amended). For every `Fire` of a registered worker whose health
probe fails: the worker is removed from the registry (so it is excluded
from future selection), `WorkerCount` decreases by one, `IdleCount` does
not change, `FireTotal` is incremented — but the worker's `Close()` is NOT
invoked (the close trace is unchanged). -/
theorem fire_unhealthy_removes_without_close (env : Env) (s : Workshop)
    (l : List (Nat × Nat)) (id r : Nat)
    (hinf : s.infos = some l) (hnd : (l.map Prod.fst).Nodup)
    (hl : alookup l id = some r)
    (hw : (hget s r).worker = id) (hh : env.health id = false) :
    (fire env (some id) s).infos = some (aerase l id) ∧
      lookupWorker (fire env (some id) s) id = none ∧
      (fire env (some id) s).stats.worker = s.stats.worker - 1 ∧
      (fire env (some id) s).stats.idle = s.stats.idle ∧
      (fire env (some id) s).stats.fire = (s.stats.fire + 1) % u64Mod ∧
      (fire env (some id) s).closedTrace = s.closedTrace := by
  have hfound : lookupWorker s id = some r := by simp [lookupWorker, alookupO, hinf, hl]
  have hfire : fire env (some id) s = writeStats (fireLocked env s r) := by
    simp [fire, hfound]
  rw [hfire]
  have hcond : ¬ env.health ((hget s r).worker) = true := by
    rw [hw, hh]
    simp
  rw [fireLocked, if_pos hcond, hw]
  simp [unhealthyRemove, writeStats, fireOne, hinf, lookupWorker, alookupO,
    alookup_aerase_self hnd]

/-- Witness for the amended C5: firing worker 5 of `wsA` while unhealthy
removes it without closing it. -/
theorem fire_unhealthy_removes_without_close_witness :
    lookupWorker (fire envSick (some 5) wsA) 5 = none ∧
      (fire envSick (some 5) wsA).closedTrace = wsA.closedTrace :=
  ⟨(fire_unhealthy_removes_without_close envSick wsA [(5, 0)] 5 0 rfl (by decide)
      rfl rfl rfl).2.1,
   (fire_unhealthy_removes_without_close envSick wsA [(5, 0)] 5 0 rfl (by decide)
      rfl rfl rfl).2.2.2.2.2⟩

/-- C9 (amended). The hint invariant "when `mostFree` is present it refers
to a handle currently in the registry" is preserved by Reaper cycles, by
every `Fire` of a registered worker that is healthy or is not the hinted
handle, and is (re-)established by every `Hire` whose selection loop
succeeds — but it is NOT preserved by every operation: `Fire` of an
unhealthy hinted worker leaves the hint dangling (see the counterexample),
as do a `Hire` that returns a factory error after evicting the hinted
worker, and `Close`. -/
theorem hint_in_registry_preservation (env : Env) :
    (∀ s, hintOkB s = true → hintOkB (reap env s) = true) ∧
      (∀ s id r, hintOkB s = true → lookupWorker s id = some r →
        (hget s r).worker = id →
        (env.health id = true ∨ s.mostFree ≠ some r) →
        hintOkB (fire env (some id) s) = true) ∧
      (∀ fuel s x s', hireLockedF env fuel s = (some (.ok x), s') →
        hintOkB s' = true) := by
  refine ⟨?_, ?_, ?_⟩
  · intro s hOk
    unfold reap
    by_cases hc : s.closed = true
    · rw [if_pos hc]
      exact hOk
    · rw [if_neg hc]
      exact (refreshLocked_master env s).2.2.2.2 hOk
  · exact fun s id r h1 h2 h3 h4 => fire_hint_pres env s id r h1 h2 h3 h4
  · exact fun fuel s x s' h => hireLockedF_ok_hintOk env fuel s x s' h

/-- Witness for the amended C9: the hint invariant holds of the reachable
state `wsA` and is preserved by a Reaper cycle there, and `Fire` of the
healthy hinted worker 5 preserves it too. -/
theorem hint_in_registry_preservation_witness :
    hintOkB wsA = true ∧ hintOkB (reap envGood wsA) = true ∧
      hintOkB (fire envGood (some 5) wsA) = true :=
  ⟨by decide, (hint_in_registry_preservation envGood).1 wsA (by decide),
    (hint_in_registry_preservation envGood).2.1 wsA 5 0 (by decide) (by decide) (by decide)
      (Or.inl (by decide))⟩

/-- C7 (amended). When the factory is invoked and fails (error, or a panic
caught by `addFn`'s recover — both reach `hireLocked` as an error), `Hire`
returns an error: a failed `addFn` changes nothing but the factory-call
count (registry, heap and stats untouched), any `Hire` whose factory-call
count advanced completed with an error, and registry membership never
grows during such a call — though it may shrink, because the same call can
evict expired or unhealthy workers before invoking the factory (see the
counterexample). -/
theorem hire_factory_fail_error_and_no_growth (env : Env)
    (hfac : ∀ n w, env.factory n ≠ FacOutcome.ok w) :
    (∀ s e s', addFn env s = (.error e, s') →
      s'.infos = s.infos ∧ s'.heap = s.heap ∧ s'.stats = s.stats) ∧
      (∀ fuel s, (hire env fuel s).2.facCalls ≠ s.facCalls →
        ∃ e, (hire env fuel s).1 = some (.error e)) ∧
      (∀ fuel s id, (lookupWorker (hire env fuel s).2 id).isSome →
        (lookupWorker s id).isSome) := by
  refine ⟨?_, ?_, ?_⟩
  · intro s e s' h
    have he := (addFn_spec env s).1 e s' h
    subst he
    exact ⟨rfl, rfl, rfl⟩
  · intro fuel s h
    obtain ⟨hst, hres⟩ := hire_parts env fuel s
    obtain ⟨A, _⟩ := hireLockedF_facfail env hfac fuel s
    have hfc : (hire env fuel s).2.facCalls = (hireLockedF env fuel s).2.facCalls := by
      rw [hst]
      rfl
    obtain ⟨e, he⟩ := A (by rw [← hfc]; exact h)
    exact ⟨e, hres e he⟩
  · intro fuel s id h
    obtain ⟨hst, _⟩ := hire_parts env fuel s
    obtain ⟨_, B⟩ := hireLockedF_facfail env hfac fuel s
    refine B id ?_
    rw [hst] at h
    exact h

/-- Witness for the amended C7: from the reachable state `wsIdle` with the
always-failing factory, the `Hire` that invoked the factory returned an
error. -/
theorem hire_factory_fail_error_and_no_growth_witness :
    (∀ n w, envBoomLate.factory n ≠ FacOutcome.ok w) ∧
      (∃ e, (hire envBoomLate 3 wsIdle).1 = some (.error e)) :=
  ⟨fun n w h => FacOutcome.noConfusion h,
    (hire_factory_fail_error_and_no_growth envBoomLate
      (fun n w h => FacOutcome.noConfusion h)).2.1 3 wsIdle (by decide)⟩

end GoutilPool
